import Mathlib

/-!
# WHERE-clause lowering of a CQL executor: a shallow embedding

This file embeds `Executor::WhereClauseToPB` (read and write overloads) and its
helpers `WhereOpToPB`, `WhereSubColOpToPB`, `FuncOpToPB` from
`src/yb/ql/exec/eval_where.cc`, and proves the specification claims about them.

Conventions of the embedding:
* `Outcome α` is the result of a `CHECKED_STATUS` computation: `ok` for
  `Status::OK()`, `err` for a propagated non-OK status (`RETURN_NOT_OK`),
  `fatal` for a `LOG(FATAL)` / failed `CHECK` process abort.
* Protobuf messages become records / inductives; an unset optional scalar field
  is `none`; repeated fields are lists and `add_*` appends.
* The external collaborators (expression translator, constant evaluator,
  token-to-hash mapping) are not under `src/`; they are modelled from the spec
  (see the doc comments on `PTExprToPB`, `Evaluate`, `CqlToYBHashCode`).
-/

/-- Result of a `CHECKED_STATUS` computation: success, propagated error
(`RETURN_NOT_OK`), or process abort (`LOG(FATAL)` / `CHECK` failure). -/
inductive Outcome (α : Type) where
  | ok (val : α)
  | err
  | fatal
deriving DecidableEq

/-- The YQL comparison / logical operators appearing in `eval_where.cc`. -/
inductive QLOperator where
  | QL_OP_GREATER_THAN
  | QL_OP_GREATER_THAN_EQUAL
  | QL_OP_LESS_THAN
  | QL_OP_LESS_THAN_EQUAL
  | QL_OP_EQUAL
  | QL_OP_NOT_EQUAL
  | QL_OP_IN
  | QL_OP_AND
deriving DecidableEq

/-- Role of a column in the table schema: hash partition key, range primary
key, or a regular column. -/
inductive ColumnRole where
  | hash
  | range
  | regular
deriving DecidableEq

/-- `ColumnDesc`: stable column id plus its schema role. -/
structure ColumnDesc where
  id : Nat
  role : ColumnRole
deriving DecidableEq

/-- `ColumnDesc::is_hash()`: the column is a hash partition-key column. -/
def ColumnDesc.is_hash (c : ColumnDesc) : Bool :=
  match c.role with
  | .hash => true
  | _ => false

/-- `ColumnDesc::is_primary()`: the column is part of the primary key
(hash or range column). -/
def ColumnDesc.is_primary (c : ColumnDesc) : Bool :=
  match c.role with
  | .regular => false
  | _ => true

/-- `QLValuePB`: either a scalar 64-bit integer value or a list value
(`list_value` with repeated `elems`). -/
inductive QLValuePB where
  | int64 (n : Int)
  | listVal (elems : List QLValuePB)

mutual
/-- `QLExpressionPB`: a lowered expression — a literal value, a column
reference, a subscripted column, or an embedded condition
(`add_operands()->mutable_condition()`). -/
inductive QLExpressionPB where
  | value (v : QLValuePB)
  | column (id : Nat)
  | subcol (id : Nat) (args : List QLExpressionPB)
  | cond (c : QLConditionPB)

/-- `QLConditionPB`: an operator applied to a list of expression operands. -/
inductive QLConditionPB where
  | mk (op : QLOperator) (operands : List QLExpressionPB)
end

/-- The operator of a condition. -/
def QLConditionPB.op : QLConditionPB → QLOperator
  | .mk o _ => o

/-- The operand list of a condition. -/
def QLConditionPB.operands : QLConditionPB → List QLExpressionPB
  | .mk _ ops => ops

/-- `expr.value().list_value().elems`: protobuf getters return the default
(empty) submessage when the field is unset, so any expression that is not a
list-valued literal reads as an empty element list. -/
def QLExpressionPB.listElems : QLExpressionPB → List QLValuePB
  | .value (.listVal es) => es
  | _ => []

/-- Modelled from the spec: the analyzed parse-tree expression `PTExpr` and its
translator `PTExprToPB` (`lowerExpr` in §6) live outside `src/`.  An analyzed
expression either lowers to a request expression or fails with a structured
error that is propagated unchanged. -/
inductive PTExpr where
  | lowersTo (pb : QLExpressionPB)
  | lowerFails

/-- Modelled from the spec: `lowerExpr(expr, out_slot) -> status` — translates
the analyzed expression into the request representation; any failure surfaces
unchanged (`RETURN_NOT_OK`). -/
def PTExprToPB : PTExpr → Outcome QLExpressionPB
  | .lowersTo pb => .ok pb
  | .lowerFails => .err

/-- Modelled from the spec: `YQLExpression::Evaluate(expr, empty_row, ...)`
(§6 `evaluate`) folds a constant expression at plan time; a non-constant
expression is a usage error propagated as a status. -/
def Evaluate : QLExpressionPB → Outcome Int
  | .value (.int64 n) => .ok n
  | _ => .err

/-- `YBPartition::kMaxHashCode`: the largest internal hash code, `0xFFFF`. -/
def kMaxHashCode : Nat := 65535

/-- Modelled from the spec: `YBPartition::CqlToYBHashCode` (§6 `tokenToHash`)
is a total deterministic mapping from the signed 64-bit CQL token to a 16-bit
hash code; its source is not under `src/`.  We use the canonical residue. -/
def CqlToYBHashCode (cql_hash : Int) : Nat :=
  (cql_hash % 65536).toNat

/-- `ColumnOp`: a parsed comparison `column <op> expr` over a described
column. -/
structure ColumnOp where
  desc : ColumnDesc
  yb_op : QLOperator
  expr : PTExpr

/-- `SubscriptedColumnOp`: comparison over a subscripted column access,
carrying the subscript-argument expressions. -/
structure SubscriptedColumnOp where
  desc : ColumnDesc
  args : List PTExpr
  yb_op : QLOperator
  expr : PTExpr

/-- `FuncOp`: comparison whose left-hand side is a built-in function call. -/
structure FuncOp where
  func_expr : PTExpr
  yb_op : QLOperator
  value_expr : PTExpr

/-- `PartitionKeyOp`: a `token(...) <op> expr` constraint. -/
structure PartitionKeyOp where
  yb_op : QLOperator
  expr : PTExpr

/-- `QLColumnValuePB`: a `column_values` entry of the write request. -/
structure QLColumnValuePB where
  column_id : Nat
  subscript_args : List QLExpressionPB
  expr : QLExpressionPB

/-- The write request fields populated by `WhereClauseToPB(QLWriteRequestPB*...)`. -/
structure QLWriteRequestPB where
  hashed_column_values : List QLExpressionPB
  range_column_values : List QLExpressionPB
  column_values : List QLColumnValuePB

/-- The read request fields populated by `WhereClauseToPB(QLReadRequestPB*...)`. -/
structure QLReadRequestPB where
  hash_code : Option Nat
  max_hash_code : Option Nat
  hashed_column_values : List QLExpressionPB
  where_expr : Option QLConditionPB

/-- Lines 72–78 of the read overload: lower the op's expression, fold it
against an empty row, and map the resulting token through
`CqlToYBHashCode`. -/
def evalHashCode (e : PTExpr) : Outcome Nat :=
  match PTExprToPB e with
  | .ok pb =>
    match Evaluate pb with
    | .ok n => .ok (CqlToYBHashCode n)
    | .err => .err
    | .fatal => .fatal
  | .err => .err
  | .fatal => .fatal

/-- The `switch (op.yb_op())` of lines 81–111: apply one partition-key op with
folded hash `hash_code` to the request.  The boolean result is the
`no_results` early return (`*no_results = true; return Status::OK();`). -/
def tokenOpStep (req : QLReadRequestPB) (yb_op : QLOperator) (hash_code : Nat) :
    Outcome (QLReadRequestPB × Bool) :=
  match yb_op with
  | .QL_OP_GREATER_THAN =>
    if hash_code ≠ kMaxHashCode then
      .ok ({req with hash_code := some (hash_code + 1)}, false)
    else
      .ok (req, true)
  | .QL_OP_GREATER_THAN_EQUAL =>
    .ok ({req with hash_code := some hash_code}, false)
  | .QL_OP_LESS_THAN =>
    .ok ({req with max_hash_code := some hash_code}, false)
  | .QL_OP_LESS_THAN_EQUAL =>
    if hash_code ≠ kMaxHashCode then
      .ok ({req with max_hash_code := some (hash_code + 1)}, false)
    else
      .ok (req, false)
  | .QL_OP_EQUAL =>
    if hash_code ≠ kMaxHashCode then
      .ok ({req with hash_code := some hash_code, max_hash_code := some (hash_code + 1)}, false)
    else
      .ok ({req with hash_code := some hash_code}, false)
  | _ => .fatal

/-- The partition-key loop of lines 71–112 (`reduceTokenOps` in the spec):
fold every op into the hash-code interval, stopping early when an op proves
the result empty. -/
def applyTokenOps (req : QLReadRequestPB) : List PartitionKeyOp → Outcome (QLReadRequestPB × Bool)
  | [] => .ok (req, false)
  | op :: rest =>
    match evalHashCode op.expr with
    | .ok h =>
      match tokenOpStep req op.yb_op h with
      | .ok (req1, true) => .ok (req1, true)
      | .ok (req1, false) => applyTokenOps req1 rest
      | .err => .err
      | .fatal => .fatal
    | .err => .err
    | .fatal => .fatal

/-- The key-binding loop of lines 115–140: append each key op's lowered
expression to `hashed_column_values` and specialize `IN` predicates.  The
result carries `(request, no_results-return, key_ops_are_set)`; an empty `IN`
returns early with `no_results`, a multi-valued `IN` clears the bindings and
breaks with `key_ops_are_set = false`. -/
def bindKeys (req : QLReadRequestPB) : List ColumnOp → Outcome (QLReadRequestPB × Bool × Bool)
  | [] => .ok (req, false, true)
  | op :: rest =>
    if op.desc.is_hash then
      match PTExprToPB op.expr with
      | .ok pb =>
        if op.yb_op = .QL_OP_IN then
          match pb.listElems with
          | [] =>
            .ok ({req with hashed_column_values := req.hashed_column_values ++ [pb]},
                 true, true)
          | [x] =>
            bindKeys
              {req with hashed_column_values := req.hashed_column_values ++ [.value x]} rest
          | _ =>
            .ok ({req with hashed_column_values := []}, false, false)
        else
          bindKeys {req with hashed_column_values := req.hashed_column_values ++ [pb]} rest
      | .err => .err
      | .fatal => .fatal
    else
      .fatal

/-- `Executor::WhereOpToPB`: a residual comparison condition — the op, a
column-reference operand, and the lowered right-hand expression. -/
def whereOpToPB (col_op : ColumnOp) : Outcome QLConditionPB :=
  match PTExprToPB col_op.expr with
  | .ok pb => .ok (.mk col_op.yb_op [.column col_op.desc.id, pb])
  | .err => .err
  | .fatal => .fatal

/-- Lower a list of subscript-argument expressions in order, propagating the
first failure. -/
def lowerArgs : List PTExpr → Outcome (List QLExpressionPB)
  | [] => .ok []
  | a :: rest =>
    match PTExprToPB a with
    | .ok pb =>
      match lowerArgs rest with
      | .ok pbs => .ok (pb :: pbs)
      | .err => .err
      | .fatal => .fatal
    | .err => .err
    | .fatal => .fatal

/-- `Executor::WhereSubColOpToPB`: residual condition for a subscripted
column. -/
def whereSubColOpToPB (col_op : SubscriptedColumnOp) : Outcome QLConditionPB :=
  match lowerArgs col_op.args with
  | .ok args =>
    match PTExprToPB col_op.expr with
    | .ok pb => .ok (.mk col_op.yb_op [.subcol col_op.desc.id args, pb])
    | .err => .err
    | .fatal => .fatal
  | .err => .err
  | .fatal => .fatal

/-- `Executor::FuncOpToPB`: residual condition for a function-call
comparison. -/
def funcOpToPB (func_op : FuncOp) : Outcome QLConditionPB :=
  match PTExprToPB func_op.func_expr with
  | .ok f =>
    match PTExprToPB func_op.value_expr with
    | .ok v => .ok (.mk func_op.yb_op [f, v])
    | .err => .err
    | .fatal => .fatal
  | .err => .err
  | .fatal => .fatal

/-- Convert every element, propagating the first error (the shape of the
`for`+`RETURN_NOT_OK` loops of lines 150–163). -/
def mapOutcome {α β : Type} (f : α → Outcome β) : List α → Outcome (List β)
  | [] => .ok []
  | a :: rest =>
    match f a with
    | .ok b =>
      match mapOutcome f rest with
      | .ok bs => .ok (b :: bs)
      | .err => .err
      | .fatal => .fatal
    | .err => .err
    | .fatal => .fatal

/-- Lines 148–163: build the residual `AND` condition.  Key ops are re-emitted
first when `key_ops_are_set` is false, then column ops, subscripted-column
ops, and function ops, each operand being an embedded condition. -/
def buildResidual (key_ops_are_set : Bool) (key_where_ops where_ops : List ColumnOp)
    (subcol_where_ops : List SubscriptedColumnOp) (func_ops : List FuncOp) :
    Outcome QLConditionPB :=
  match (if key_ops_are_set then .ok [] else mapOutcome whereOpToPB key_where_ops) with
  | .ok l1 =>
    match mapOutcome whereOpToPB where_ops with
    | .ok l2 =>
      match mapOutcome whereSubColOpToPB subcol_where_ops with
      | .ok l3 =>
        match mapOutcome funcOpToPB func_ops with
        | .ok l4 =>
          .ok (.mk .QL_OP_AND ((l1 ++ l2 ++ l3 ++ l4).map QLExpressionPB.cond))
        | .err => .err
        | .fatal => .fatal
      | .err => .err
      | .fatal => .fatal
    | .err => .err
    | .fatal => .fatal
  | .err => .err
  | .fatal => .fatal

/-- `Executor::WhereClauseToPB` for a read request (lines 60–166).  The
returned boolean is the `no_results` out-parameter. -/
def whereClauseToPBRead (req : QLReadRequestPB) (key_where_ops : List ColumnOp)
    (where_ops : List ColumnOp) (subcol_where_ops : List SubscriptedColumnOp)
    (partition_key_ops : List PartitionKeyOp) (func_ops : List FuncOp) :
    Outcome (QLReadRequestPB × Bool) :=
  match applyTokenOps req partition_key_ops with
  | .ok (req1, true) => .ok (req1, true)
  | .ok (req1, false) =>
    match bindKeys req1 key_where_ops with
    | .ok (req2, true, _) => .ok (req2, true)
    | .ok (req2, false, key_ops_are_set) =>
      if key_ops_are_set && where_ops.isEmpty && subcol_where_ops.isEmpty
          && func_ops.isEmpty then
        .ok (req2, false)
      else
        match buildResidual key_ops_are_set key_where_ops where_ops subcol_where_ops
            func_ops with
        | .ok c => .ok ({req2 with where_expr := some c}, false)
        | .err => .err
        | .fatal => .fatal
    | .err => .err
    | .fatal => .fatal
  | .err => .err
  | .fatal => .fatal

/-- The key loop of the write overload (lines 30–41): route each key op to
`hashed_column_values` or `range_column_values` by column role; any other role
is a `LOG(FATAL)`. -/
def bindWriteKeys (req : QLWriteRequestPB) : List ColumnOp → Outcome QLWriteRequestPB
  | [] => .ok req
  | op :: rest =>
    if op.desc.is_hash then
      match PTExprToPB op.expr with
      | .ok pb =>
        bindWriteKeys
          {req with hashed_column_values := req.hashed_column_values ++ [pb]} rest
      | .err => .err
      | .fatal => .fatal
    else if op.desc.is_primary then
      match PTExprToPB op.expr with
      | .ok pb =>
        bindWriteKeys
          {req with range_column_values := req.range_column_values ++ [pb]} rest
      | .err => .err
      | .fatal => .fatal
    else
      .fatal

/-- The subscripted-column loop of the write overload (lines 46–55): append a
`column_values` entry carrying the column id, the lowered subscript args, and
the lowered right-hand expression. -/
def bindSubcols (req : QLWriteRequestPB) : List SubscriptedColumnOp → Outcome QLWriteRequestPB
  | [] => .ok req
  | op :: rest =>
    match lowerArgs op.args with
    | .ok args =>
      match PTExprToPB op.expr with
      | .ok pb =>
        bindSubcols
          {req with column_values := req.column_values ++ [⟨op.desc.id, args, pb⟩]} rest
      | .err => .err
      | .fatal => .fatal
    | .err => .err
    | .fatal => .fatal

/-- `Executor::WhereClauseToPB` for a write request (lines 25–58): bind the
key columns, `CHECK` that no residual column ops exist, then emit the
subscripted-column values. -/
def whereClauseToPBWrite (req : QLWriteRequestPB) (key_where_ops where_ops : List ColumnOp)
    (subcol_where_ops : List SubscriptedColumnOp) : Outcome QLWriteRequestPB :=
  match bindWriteKeys req key_where_ops with
  | .ok req1 =>
    if where_ops.isEmpty then bindSubcols req1 subcol_where_ops else .fatal
  | .err => .err
  | .fatal => .fatal

/-- Whether a key op is a multi-valued `IN` (its lowered value is a list of at
least two elements): the condition that makes the read key loop abandon the
key bindings. -/
def isMultiIn (op : ColumnOp) : Bool :=
  match op.yb_op, PTExprToPB op.expr with
  | .QL_OP_IN, .ok pb => decide (2 ≤ pb.listElems.length)
  | _, _ => false

/-- A fresh read request: no hash bounds, no key bindings, no residual
predicate. -/
def emptyReadReq : QLReadRequestPB :=
  ⟨none, none, [], none⟩

/-- A fresh write request. -/
def emptyWriteReq : QLWriteRequestPB :=
  ⟨[], [], []⟩

/-- An analyzed expression that folds to the integer token `n`. -/
def tokenExpr (n : Int) : PTExpr :=
  .lowersTo (.value (.int64 n))


/-! ## Structural lemmas about the loops -/

/-- The partition-key loop over a concatenation runs the first part and, when
it neither fails nor returns early, continues with the second. -/
theorem applyTokenOps_append (a : List PartitionKeyOp) (req : QLReadRequestPB)
    (b : List PartitionKeyOp) :
    applyTokenOps req (a ++ b) =
      match applyTokenOps req a with
      | .ok (r, false) => applyTokenOps r b
      | o => o := by
  induction a generalizing req with
  | nil => simp [applyTokenOps]
  | cons op rest ih =>
    simp only [List.cons_append, applyTokenOps]
    cases h1 : evalHashCode op.expr with
    | ok hc =>
      cases h2 : tokenOpStep req op.yb_op hc with
      | ok p =>
        obtain ⟨r1, b1⟩ := p
        cases b1 <;> simp [h1, h2, ih]
      | err => simp [h1, h2]
      | fatal => simp [h1, h2]
    | err => simp [h1]
    | fatal => simp [h1]

/-- The key-binding loop over a concatenation runs the first part and, when it
neither fails, returns early, nor breaks, continues with the second. -/
theorem bindKeys_append (a : List ColumnOp) (req : QLReadRequestPB) (b : List ColumnOp) :
    bindKeys req (a ++ b) =
      match bindKeys req a with
      | .ok (r, false, true) => bindKeys r b
      | o => o := by
  induction a generalizing req with
  | nil => simp [bindKeys]
  | cons op rest ih =>
    simp only [List.cons_append, bindKeys]
    by_cases hh : op.desc.is_hash
    · simp only [hh, if_true]
      cases h1 : PTExprToPB op.expr with
      | ok pb =>
        by_cases hin : op.yb_op = .QL_OP_IN
        · simp only [hin, if_true]
          cases hel : pb.listElems with
          | nil => simp
          | cons x tl =>
            cases tl with
            | nil => simp [ih]
            | cons y tl2 => simp
        · simp [hin, ih]
      | err => simp
      | fatal => simp
    · simp [hh]

/-- One partition-key op only writes the hash bounds; `where_expr` and
`hashed_column_values` pass through. -/
theorem tokenOpStep_frame {req : QLReadRequestPB} {o : QLOperator} {hc : Nat}
    {r1 : QLReadRequestPB} {b1 : Bool}
    (h : tokenOpStep req o hc = .ok (r1, b1)) :
    r1.where_expr = req.where_expr ∧ r1.hashed_column_values = req.hashed_column_values := by
  cases o <;> simp only [tokenOpStep] at h
  all_goals try split at h
  all_goals simp at h
  all_goals obtain ⟨h1, h2⟩ := h
  all_goals subst h1
  all_goals exact ⟨rfl, rfl⟩

/-- The partition-key loop touches only the hash-code bounds: `where_expr` and
`hashed_column_values` pass through unchanged. -/
theorem applyTokenOps_frame (l : List PartitionKeyOp) (req r : QLReadRequestPB) (b : Bool)
    (h : applyTokenOps req l = .ok (r, b)) :
    r.where_expr = req.where_expr ∧ r.hashed_column_values = req.hashed_column_values := by
  induction l generalizing req with
  | nil =>
    simp only [applyTokenOps] at h
    simp at h
    obtain ⟨h1, h2⟩ := h
    subst h1
    exact ⟨rfl, rfl⟩
  | cons op rest ih =>
    simp only [applyTokenOps] at h
    split at h
    · split at h
      · rename_i req1 h2
        simp at h
        obtain ⟨h3, h4⟩ := h
        subst h3
        exact tokenOpStep_frame h2
      · rename_i req1 h2
        have hstep := tokenOpStep_frame h2
        have hrec := ih req1 h
        exact ⟨hrec.1.trans hstep.1, hrec.2.trans hstep.2⟩
      · exact absurd h (by simp)
      · exact absurd h (by simp)
    · exact absurd h (by simp)
    · exact absurd h (by simp)

/-- The key-binding loop only touches `hashed_column_values`: `where_expr` and
the hash bounds pass through unchanged. -/
theorem bindKeys_frame (l : List ColumnOp) (req r : QLReadRequestPB) (nr ks : Bool)
    (h : bindKeys req l = .ok (r, nr, ks)) :
    r.where_expr = req.where_expr ∧ r.hash_code = req.hash_code ∧
      r.max_hash_code = req.max_hash_code := by
  induction l generalizing req with
  | nil =>
    simp only [bindKeys] at h
    simp at h
    obtain ⟨h1, h2⟩ := h
    subst h1
    exact ⟨rfl, rfl, rfl⟩
  | cons op rest ih =>
    simp only [bindKeys] at h
    split at h
    · split at h
      · split at h
        · split at h
          · simp at h
            obtain ⟨h1, h2⟩ := h
            subst h1
            exact ⟨rfl, rfl, rfl⟩
          · have hrec := ih _ h
            exact hrec
          · simp at h
            obtain ⟨h1, h2⟩ := h
            subst h1
            exact ⟨rfl, rfl, rfl⟩
        · have hrec := ih _ h
          exact hrec
      · exact absurd h (by simp)
      · exact absurd h (by simp)
    · exact absurd h (by simp)

/-- If no key op is a multi-valued `IN`, the loop never takes the
clear-and-break branch, so `key_ops_are_set` stays true. -/
theorem bindKeys_flag_true (l : List ColumnOp) (req r : QLReadRequestPB) (nr ks : Bool)
    (hm : ∀ op ∈ l, isMultiIn op = false)
    (h : bindKeys req l = .ok (r, nr, ks)) : ks = true := by
  induction l generalizing req with
  | nil =>
    simp only [bindKeys] at h
    simp at h
    exact h.2.2
  | cons op rest ih =>
    simp only [bindKeys] at h
    split at h
    · rename_i hh
      split at h
      · rename_i pb hpb
        split at h
        · rename_i hin
          split at h
          · simp at h
            exact h.2.2
          · have hrec := ih _ (fun o ho => hm o (List.mem_cons_of_mem _ ho)) h
            exact hrec
          · rename_i hne1 hne2
            have hmi : isMultiIn op = true := by
              simp only [isMultiIn, hin, hpb]
              cases hl : pb.listElems with
              | nil => exact absurd hl hne1
              | cons a tl1 =>
                cases tl1 with
                | nil => exact absurd hl (hne2 a)
                | cons b tl2 =>
                  simp only [List.length_cons, decide_eq_true_eq]
                  omega
            have hcontra := hm op (List.mem_cons_self _ _)
            rw [hmi] at hcontra
            exact absurd hcontra (by simp)
        · have hrec := ih _ (fun o ho => hm o (List.mem_cons_of_mem _ ho)) h
          exact hrec
      · exact absurd h (by simp)
      · exact absurd h (by simp)
    · exact absurd h (by simp)

/-- If the key-binding loop completed with `key_ops_are_set` still true and no
`no_results` early return, then no key op in the list is a multi-valued
`IN`. -/
theorem bindKeys_multiIn_not_set (l : List ColumnOp) (req r : QLReadRequestPB)
    (op0 : ColumnOp) (pb0 : QLExpressionPB)
    (hmem : op0 ∈ l) (hin0 : op0.yb_op = .QL_OP_IN)
    (hpb0 : PTExprToPB op0.expr = .ok pb0) (hlen : 2 ≤ pb0.listElems.length)
    (h : bindKeys req l = .ok (r, false, true)) : False := by
  induction l generalizing req with
  | nil => exact absurd hmem (by simp)
  | cons op rest ih =>
    simp only [bindKeys] at h
    split at h
    · rename_i hh
      split at h
      · rename_i pb hpb
        split at h
        · rename_i hin
          split at h
          · simp at h
          · rename_i x hel
            rcases List.mem_cons.mp hmem with heq | hmem'
            · subst heq
              rw [hpb0] at hpb
              injection hpb with hpb'
              subst hpb'
              rw [hel] at hlen
              simp at hlen
            · exact ih _ hmem' h
          · simp at h
        · rename_i hin
          rcases List.mem_cons.mp hmem with heq | hmem'
          · subst heq
            exact hin hin0
          · exact ih _ hmem' h
      · exact absurd h (by simp)
      · exact absurd h (by simp)
    · exact absurd h (by simp)

/-- When the key-binding loop breaks with `key_ops_are_set = false`, it has
just cleared `hashed_column_values` and did not request an early return. -/
theorem bindKeys_cleared (l : List ColumnOp) (req r : QLReadRequestPB) (nr : Bool)
    (h : bindKeys req l = .ok (r, nr, false)) :
    nr = false ∧ r.hashed_column_values = [] := by
  induction l generalizing req with
  | nil =>
    simp only [bindKeys] at h
    simp at h
  | cons op rest ih =>
    simp only [bindKeys] at h
    split at h
    · split at h
      · split at h
        · split at h
          · simp at h
          · have hrec := ih _ h
            exact hrec
          · simp at h
            obtain ⟨h1, h2⟩ := h
            subst h1
            exact ⟨h2, rfl⟩
        · have hrec := ih _ h
          exact hrec
      · exact absurd h (by simp)
      · exact absurd h (by simp)
    · exact absurd h (by simp)

/-- Members of a successfully converted list are successfully converted, and
their images are members of the output. -/
theorem mapOutcome_mem {α β : Type} (f : α → Outcome β) (l : List α) (out : List β)
    (h : mapOutcome f l = .ok out) (a : α) (ha : a ∈ l) :
    ∃ b, f a = .ok b ∧ b ∈ out := by
  induction l generalizing out with
  | nil => exact absurd ha (by simp)
  | cons x rest ih =>
    simp only [mapOutcome] at h
    split at h
    · rename_i b hb
      split at h
      · rename_i bs hbs
        simp at h
        subst h
        rcases List.mem_cons.mp ha with heq | hmem
        · subst heq
          exact ⟨b, hb, List.mem_cons_self _ _⟩
        · obtain ⟨b', hb', hmemb⟩ := ih bs hbs hmem
          exact ⟨b', hb', List.mem_cons_of_mem _ hmemb⟩
      · exact absurd h (by simp)
      · exact absurd h (by simp)
    · exact absurd h (by simp)
    · exact absurd h (by simp)

/-- Inversion for a successful read lowering: the hash bounds of the final
request are exactly those produced by the partition-key loop. -/
theorem whereRead_hash_bounds (req : QLReadRequestPB) (kops wops : List ColumnOp)
    (sops : List SubscriptedColumnOp) (pk : List PartitionKeyOp) (fops : List FuncOp)
    (r : QLReadRequestPB) (nr : Bool)
    (h : whereClauseToPBRead req kops wops sops pk fops = .ok (r, nr)) :
    ∃ r1 b1, applyTokenOps req pk = .ok (r1, b1) ∧
      r.hash_code = r1.hash_code ∧ r.max_hash_code = r1.max_hash_code := by
  simp only [whereClauseToPBRead] at h
  split at h
  · rename_i r1 h1
    simp at h
    obtain ⟨h2, h3⟩ := h
    subst h2
    exact ⟨r1, true, h1, rfl, rfl⟩
  · rename_i r1 h1
    refine ⟨r1, false, h1, ?_⟩
    split at h
    · rename_i r2 ks h2
      simp at h
      obtain ⟨h3, h4⟩ := h
      subst h3
      have hfr := bindKeys_frame _ _ _ _ _ h2
      exact ⟨hfr.2.1, hfr.2.2⟩
    · rename_i r2 ks h2
      have hfr := bindKeys_frame _ _ _ _ _ h2
      split at h
      · simp at h
        obtain ⟨h3, h4⟩ := h
        subst h3
        exact ⟨hfr.2.1, hfr.2.2⟩
      · split at h
        · rename_i c hc
          simp at h
          obtain ⟨h3, h4⟩ := h
          subst h3
          exact ⟨hfr.2.1, hfr.2.2⟩
        · exact absurd h (by simp)
        · exact absurd h (by simp)
    · exact absurd h (by simp)
    · exact absurd h (by simp)
  · exact absurd h (by simp)
  · exact absurd h (by simp)

/-- Expression lowering itself never aborts the process: it returns a status. -/
theorem PTExprToPB_not_fatal (e : PTExpr) : PTExprToPB e ≠ .fatal := by
  cases e <;> simp [PTExprToPB]

/-- Lowering subscript arguments never aborts the process. -/
theorem lowerArgs_not_fatal (l : List PTExpr) : lowerArgs l ≠ .fatal := by
  induction l with
  | nil => simp [lowerArgs]
  | cons a rest ih =>
    simp only [lowerArgs]
    cases h1 : PTExprToPB a with
    | ok pb =>
      cases h2 : lowerArgs rest with
      | ok pbs => simp
      | err => simp
      | fatal => exact absurd h2 ih
    | err => simp
    | fatal => exact absurd h1 (PTExprToPB_not_fatal a)

/-- The write key loop over a concatenation runs the first part and, on
success, continues with the second. -/
theorem bindWriteKeys_append (a : List ColumnOp) (req : QLWriteRequestPB)
    (b : List ColumnOp) :
    bindWriteKeys req (a ++ b) =
      match bindWriteKeys req a with
      | .ok r => bindWriteKeys r b
      | o => o := by
  induction a generalizing req with
  | nil => simp [bindWriteKeys]
  | cons op rest ih =>
    simp only [List.cons_append, bindWriteKeys]
    by_cases hh : op.desc.is_hash
    · simp only [hh, if_true]
      cases h1 : PTExprToPB op.expr with
      | ok pb => simp [ih]
      | err => simp
      | fatal => simp
    · simp only [hh, if_false, Bool.false_eq_true]
      by_cases hp : op.desc.is_primary
      · simp only [hp, if_true]
        cases h1 : PTExprToPB op.expr with
        | ok pb => simp [ih]
        | err => simp
        | fatal => simp
      · simp [hp]

/-- When every key column is a primary-key column, the write key loop never
hits its fatal branch. -/
theorem bindWriteKeys_not_fatal (l : List ColumnOp) (req : QLWriteRequestPB)
    (hp : ∀ op ∈ l, op.desc.is_primary = true) :
    bindWriteKeys req l ≠ .fatal := by
  induction l generalizing req with
  | nil => simp [bindWriteKeys]
  | cons op rest ih =>
    simp only [bindWriteKeys]
    by_cases hh : op.desc.is_hash
    · simp only [hh, if_true]
      cases h1 : PTExprToPB op.expr with
      | ok pb => exact ih _ (fun o ho => hp o (List.mem_cons_of_mem _ ho))
      | err => simp
      | fatal => exact absurd h1 (PTExprToPB_not_fatal _)
    · simp only [hh, if_false, Bool.false_eq_true]
      have hpo := hp op (List.mem_cons_self _ _)
      simp only [hpo, if_true]
      cases h1 : PTExprToPB op.expr with
      | ok pb => exact ih _ (fun o ho => hp o (List.mem_cons_of_mem _ ho))
      | err => simp
      | fatal => exact absurd h1 (PTExprToPB_not_fatal _)

/-- The subscripted-column loop of the write path never aborts the process. -/
theorem bindSubcols_not_fatal (l : List SubscriptedColumnOp) (req : QLWriteRequestPB) :
    bindSubcols req l ≠ .fatal := by
  induction l generalizing req with
  | nil => simp [bindSubcols]
  | cons op rest ih =>
    simp only [bindSubcols]
    cases h1 : lowerArgs op.args with
    | ok args =>
      cases h2 : PTExprToPB op.expr with
      | ok pb => exact ih _
      | err => simp
      | fatal => exact absurd h2 (PTExprToPB_not_fatal _)
    | err => simp
    | fatal => exact absurd h1 (lowerArgs_not_fatal _)

/-! ## Claims -/

/-- C2: For each `PartitionKeyOp` whose right-hand side folds to hash value
`v`, the token-bound reducer updates the read request exactly per the
transition table: `GT v` sets `hash_code = v + 1` unless `v = MAX_HASH` (then
the result is declared empty); `GE v` sets `hash_code = v`; `LT v` sets
`max_hash_code = v`; `LE v` sets `max_hash_code = v + 1` unless
`v = MAX_HASH` (then nothing changes); `EQ v` sets `hash_code = v` and, when
`v ≠ MAX_HASH`, also `max_hash_code = v + 1`. -/
theorem c2_token_transition_table (req : QLReadRequestPB) (e : PTExpr) (v : Nat)
    (he : evalHashCode e = .ok v) :
    (applyTokenOps req [⟨.QL_OP_GREATER_THAN, e⟩] =
      if v = kMaxHashCode then .ok (req, true)
      else .ok ({req with hash_code := some (v + 1)}, false)) ∧
    (applyTokenOps req [⟨.QL_OP_GREATER_THAN_EQUAL, e⟩] =
      .ok ({req with hash_code := some v}, false)) ∧
    (applyTokenOps req [⟨.QL_OP_LESS_THAN, e⟩] =
      .ok ({req with max_hash_code := some v}, false)) ∧
    (applyTokenOps req [⟨.QL_OP_LESS_THAN_EQUAL, e⟩] =
      if v = kMaxHashCode then .ok (req, false)
      else .ok ({req with max_hash_code := some (v + 1)}, false)) ∧
    (applyTokenOps req [⟨.QL_OP_EQUAL, e⟩] =
      if v = kMaxHashCode then .ok ({req with hash_code := some v}, false)
      else .ok ({req with hash_code := some v, max_hash_code := some (v + 1)}, false)) := by
  refine ⟨?_, ?_, ?_, ?_, ?_⟩ <;>
    · by_cases hv : v = kMaxHashCode <;>
        simp [applyTokenOps, he, tokenOpStep, hv]

/-- Witness for C2 at `v = 3` on a fresh request. -/
theorem c2_token_transition_table_witness :
    (applyTokenOps emptyReadReq [⟨.QL_OP_GREATER_THAN, tokenExpr 3⟩] =
      if 3 = kMaxHashCode then .ok (emptyReadReq, true)
      else .ok ({emptyReadReq with hash_code := some (3 + 1)}, false)) ∧
    (applyTokenOps emptyReadReq [⟨.QL_OP_GREATER_THAN_EQUAL, tokenExpr 3⟩] =
      .ok ({emptyReadReq with hash_code := some 3}, false)) ∧
    (applyTokenOps emptyReadReq [⟨.QL_OP_LESS_THAN, tokenExpr 3⟩] =
      .ok ({emptyReadReq with max_hash_code := some 3}, false)) ∧
    (applyTokenOps emptyReadReq [⟨.QL_OP_LESS_THAN_EQUAL, tokenExpr 3⟩] =
      if 3 = kMaxHashCode then .ok (emptyReadReq, false)
      else .ok ({emptyReadReq with max_hash_code := some (3 + 1)}, false)) ∧
    (applyTokenOps emptyReadReq [⟨.QL_OP_EQUAL, tokenExpr 3⟩] =
      if 3 = kMaxHashCode then .ok ({emptyReadReq with hash_code := some 3}, false)
      else .ok ({emptyReadReq with hash_code := some 3, max_hash_code := some (3 + 1)},
          false)) :=
  c2_token_transition_table emptyReadReq (tokenExpr 3) 3 rfl

/-- C6: for every hash value `v < MAX_HASH`, reducing `[EQ v]` produces the
same hash-code interval on the request as reducing `[GE v, LT v+1]`. -/
theorem c6_eq_equals_ge_lt (req : QLReadRequestPB) (e1 e2 e3 : PTExpr) (v : Nat)
    (hv : v < kMaxHashCode)
    (h1 : evalHashCode e1 = .ok v) (h2 : evalHashCode e2 = .ok v)
    (h3 : evalHashCode e3 = .ok (v + 1)) :
    applyTokenOps req [⟨.QL_OP_EQUAL, e1⟩] =
      applyTokenOps req [⟨.QL_OP_GREATER_THAN_EQUAL, e2⟩, ⟨.QL_OP_LESS_THAN, e3⟩] := by
  have hne : v ≠ kMaxHashCode := Nat.ne_of_lt hv
  simp [applyTokenOps, h1, h2, h3, tokenOpStep, hne]

/-- Witness for C6 at `v = 3` on a fresh request. -/
theorem c6_eq_equals_ge_lt_witness :
    applyTokenOps emptyReadReq [⟨.QL_OP_EQUAL, tokenExpr 3⟩] =
      applyTokenOps emptyReadReq
        [⟨.QL_OP_GREATER_THAN_EQUAL, tokenExpr 3⟩, ⟨.QL_OP_LESS_THAN, tokenExpr 4⟩] :=
  c6_eq_equals_ge_lt emptyReadReq (tokenExpr 3) (tokenExpr 3) (tokenExpr 4) 3
    (by decide) rfl rfl rfl

/-- C8: when `key_ops_are_set` remains true after the key loop and the
residual op collections are all empty, the read lowering returns the request
produced so far and leaves `where_expr` untouched (no AND-of-nothing is
emitted). -/
theorem c8_no_vacuous_where (req : QLReadRequestPB) (pk : List PartitionKeyOp)
    (kops : List ColumnOp) (r1 r2 : QLReadRequestPB) (nr : Bool)
    (h1 : applyTokenOps req pk = .ok (r1, false))
    (h2 : bindKeys r1 kops = .ok (r2, nr, true)) :
    whereClauseToPBRead req kops [] [] pk [] = .ok (r2, nr) ∧
      r2.where_expr = req.where_expr := by
  have hf1 := applyTokenOps_frame _ _ _ _ h1
  have hf2 := bindKeys_frame _ _ _ _ _ h2
  constructor
  · simp only [whereClauseToPBRead, h1, h2]
    cases nr with
    | true => simp
    | false => simp
  · exact hf2.1.trans hf1.1

/-- Witness for C8: one key op `h1 EQ 7`, no residual ops, fresh request. -/
theorem c8_no_vacuous_where_witness :
    whereClauseToPBRead emptyReadReq
        [⟨⟨1, .hash⟩, .QL_OP_EQUAL, .lowersTo (.value (.int64 7))⟩] [] [] [] [] =
      .ok ({emptyReadReq with hashed_column_values := [.value (.int64 7)]}, false) ∧
    QLReadRequestPB.where_expr
        {emptyReadReq with hashed_column_values := [.value (.int64 7)]} =
      emptyReadReq.where_expr :=
  c8_no_vacuous_where emptyReadReq []
    [⟨⟨1, .hash⟩, .QL_OP_EQUAL, .lowersTo (.value (.int64 7))⟩]
    emptyReadReq {emptyReadReq with hashed_column_values := [.value (.int64 7)]} false
    rfl rfl

/-- C5: whenever lowering detects a provably empty result set — a token op
`GT MAX_HASH`, or an `IN` key op whose lowered list has no elements — it sets
`no_results = true` and returns `OK` immediately with the request as built so
far: the remaining ops and every later lowering stage are skipped. -/
theorem c5_empty_short_circuit :
    (∀ (req : QLReadRequestPB) (kops wops : List ColumnOp)
        (sops : List SubscriptedColumnOp) (fops : List FuncOp)
        (ppre ppost : List PartitionKeyOp) (e : PTExpr) (r : QLReadRequestPB),
      applyTokenOps req ppre = .ok (r, false) →
      evalHashCode e = .ok kMaxHashCode →
      whereClauseToPBRead req kops wops sops
          (ppre ++ ⟨.QL_OP_GREATER_THAN, e⟩ :: ppost) fops = .ok (r, true)) ∧
    (∀ (req : QLReadRequestPB) (kpre kpost wops : List ColumnOp)
        (sops : List SubscriptedColumnOp) (pk : List PartitionKeyOp) (fops : List FuncOp)
        (c : ColumnDesc) (e : PTExpr) (pb : QLExpressionPB) (r1 r2 : QLReadRequestPB),
      applyTokenOps req pk = .ok (r1, false) →
      bindKeys r1 kpre = .ok (r2, false, true) →
      c.is_hash = true →
      PTExprToPB e = .ok pb →
      pb.listElems = [] →
      whereClauseToPBRead req (kpre ++ ⟨c, .QL_OP_IN, e⟩ :: kpost) wops sops pk fops =
        .ok ({r2 with hashed_column_values := r2.hashed_column_values ++ [pb]}, true)) := by
  constructor
  · intro req kops wops sops fops ppre ppost e r hpre he
    have happ := applyTokenOps_append ppre req (⟨.QL_OP_GREATER_THAN, e⟩ :: ppost)
    simp only [hpre] at happ
    have hstep : applyTokenOps r (⟨.QL_OP_GREATER_THAN, e⟩ :: ppost) = .ok (r, true) := by
      simp [applyTokenOps, he, tokenOpStep]
    rw [hstep] at happ
    simp only [whereClauseToPBRead, happ]
  · intro req kpre kpost wops sops pk fops c e pb r1 r2 htok hbind hhash hpb hel
    have happ := bindKeys_append kpre r1 (⟨c, .QL_OP_IN, e⟩ :: kpost)
    simp only [hbind] at happ
    have hstep : bindKeys r2 (⟨c, .QL_OP_IN, e⟩ :: kpost) =
        .ok ({r2 with hashed_column_values := r2.hashed_column_values ++ [pb]},
             true, true) := by
      simp [bindKeys, hhash, hpb, hel]
    rw [hstep] at happ
    simp only [whereClauseToPBRead, htok, happ]

/-- Witness for C5: `GT` at the maximal token on a fresh request, and a
one-op key list whose `IN` list is empty. -/
theorem c5_empty_short_circuit_witness :
    whereClauseToPBRead emptyReadReq [] [] [] [⟨.QL_OP_GREATER_THAN, tokenExpr 65535⟩] [] =
      .ok (emptyReadReq, true) ∧
    whereClauseToPBRead emptyReadReq
        [⟨⟨1, .hash⟩, .QL_OP_IN, .lowersTo (.value (.listVal []))⟩] [] [] [] [] =
      .ok ({emptyReadReq with
              hashed_column_values :=
                emptyReadReq.hashed_column_values ++ [.value (.listVal [])]}, true) :=
  ⟨c5_empty_short_circuit.1 emptyReadReq [] [] [] [] [] [] (tokenExpr 65535)
      emptyReadReq rfl rfl,
   c5_empty_short_circuit.2 emptyReadReq [] [] [] [] [] [] ⟨1, .hash⟩
      (.lowersTo (.value (.listVal []))) (.value (.listVal []))
      emptyReadReq emptyReadReq rfl rfl rfl rfl rfl⟩

/-- C9: when an empty `IN` list is detected on the read path, the function
returns with `no_results = true` but does not clear `hashed_column_values`:
the entries appended for earlier key ops, and the entry already appended for
the empty-`IN` column itself, remain in the request, and `where_expr` is left
untouched. -/
theorem c9_empty_in_keeps_bindings (req : QLReadRequestPB)
    (kpre kpost wops : List ColumnOp) (sops : List SubscriptedColumnOp)
    (pk : List PartitionKeyOp) (fops : List FuncOp)
    (c : ColumnDesc) (e : PTExpr) (pb : QLExpressionPB) (r1 r2 : QLReadRequestPB)
    (htok : applyTokenOps req pk = .ok (r1, false))
    (hbind : bindKeys r1 kpre = .ok (r2, false, true))
    (hhash : c.is_hash = true) (hpb : PTExprToPB e = .ok pb)
    (hel : pb.listElems = []) :
    ∃ r3, whereClauseToPBRead req (kpre ++ ⟨c, .QL_OP_IN, e⟩ :: kpost) wops sops pk fops =
        .ok (r3, true) ∧
      r3.hashed_column_values = r2.hashed_column_values ++ [pb] ∧
      r3.where_expr = req.where_expr := by
  refine ⟨{r2 with hashed_column_values := r2.hashed_column_values ++ [pb]}, ?_, rfl, ?_⟩
  · have happ := bindKeys_append kpre r1 (⟨c, .QL_OP_IN, e⟩ :: kpost)
    simp only [hbind] at happ
    have hstep : bindKeys r2 (⟨c, .QL_OP_IN, e⟩ :: kpost) =
        .ok ({r2 with hashed_column_values := r2.hashed_column_values ++ [pb]},
             true, true) := by
      simp [bindKeys, hhash, hpb, hel]
    rw [hstep] at happ
    simp only [whereClauseToPBRead, htok, happ]
  · have hf2 := bindKeys_frame _ _ _ _ _ hbind
    have hf1 := applyTokenOps_frame _ _ _ _ htok
    exact hf2.1.trans hf1.1

/-- Witness for C9: one earlier key binding `h1 EQ 1`, then `h2 IN []`; both
entries remain in `hashed_column_values`. -/
theorem c9_empty_in_keeps_bindings_witness :
    ∃ r3, whereClauseToPBRead emptyReadReq
        ([⟨⟨1, .hash⟩, .QL_OP_EQUAL, .lowersTo (.value (.int64 1))⟩] ++
          ⟨⟨2, .hash⟩, .QL_OP_IN, .lowersTo (.value (.listVal []))⟩ :: []) [] [] [] [] =
        .ok (r3, true) ∧
      r3.hashed_column_values =
        QLReadRequestPB.hashed_column_values
            {emptyReadReq with hashed_column_values := [.value (.int64 1)]} ++
          [.value (.listVal [])] ∧
      r3.where_expr = emptyReadReq.where_expr :=
  c9_empty_in_keeps_bindings emptyReadReq
    [⟨⟨1, .hash⟩, .QL_OP_EQUAL, .lowersTo (.value (.int64 1))⟩] [] [] [] [] []
    ⟨2, .hash⟩ (.lowersTo (.value (.listVal []))) (.value (.listVal []))
    emptyReadReq {emptyReadReq with hashed_column_values := [.value (.int64 1)]}
    rfl rfl rfl rfl rfl

/-- When `key_ops_are_set` is true the residual builder never inspects the
key-op list. -/
theorem buildResidual_true_congr (k k' wops : List ColumnOp)
    (sops : List SubscriptedColumnOp) (fops : List FuncOp) :
    buildResidual true k wops sops fops = buildResidual true k' wops sops fops := rfl

/-- C4: a read key op `c IN [x]` (exactly one lowered element) is rewritten in
place to an equality binding: the whole lowering behaves exactly as if the op
were `c EQ x` (provided no other key op is a multi-valued `IN`, which would
re-emit the op itself as a residual predicate), and the `hashed_column_values`
entry appended for `c` is the lowered single element `x` itself rather than a
one-element list. -/
theorem c4_singleton_in_is_equality (req : QLReadRequestPB)
    (kpre kpost wops : List ColumnOp) (sops : List SubscriptedColumnOp)
    (pk : List PartitionKeyOp) (fops : List FuncOp)
    (c : ColumnDesc) (e e' : PTExpr) (x : QLValuePB)
    (he : PTExprToPB e = .ok (.value (.listVal [x])))
    (he' : PTExprToPB e' = .ok (.value x))
    (hm : ∀ op ∈ kpre ++ kpost, isMultiIn op = false) :
    (whereClauseToPBRead req (kpre ++ ⟨c, .QL_OP_IN, e⟩ :: kpost) wops sops pk fops =
      whereClauseToPBRead req (kpre ++ ⟨c, .QL_OP_EQUAL, e'⟩ :: kpost) wops sops pk fops) ∧
    (c.is_hash = true →
      bindKeys req [⟨c, .QL_OP_IN, e⟩] =
        .ok ({req with hashed_column_values := req.hashed_column_values ++ [.value x]},
             false, true)) := by
  have hstep : ∀ r : QLReadRequestPB,
      bindKeys r (⟨c, .QL_OP_IN, e⟩ :: kpost) =
        bindKeys r (⟨c, .QL_OP_EQUAL, e'⟩ :: kpost) := by
    intro r
    by_cases hh : c.is_hash
    · simp [bindKeys, hh, he, he', QLExpressionPB.listElems]
    · simp [bindKeys, hh]
  constructor
  · have hbk : ∀ r0 : QLReadRequestPB,
        bindKeys r0 (kpre ++ ⟨c, .QL_OP_IN, e⟩ :: kpost) =
          bindKeys r0 (kpre ++ ⟨c, .QL_OP_EQUAL, e'⟩ :: kpost) := by
      intro r0
      rw [bindKeys_append, bindKeys_append]
      cases hb : bindKeys r0 kpre with
      | ok p =>
        obtain ⟨ra, nra, ksa⟩ := p
        cases nra <;> cases ksa <;> simp [hstep]
      | err => rfl
      | fatal => rfl
    have hmEq : ∀ op ∈ kpre ++ ⟨c, .QL_OP_EQUAL, e'⟩ :: kpost, isMultiIn op = false := by
      intro op hop
      rcases List.mem_append.mp hop with hop1 | hop2
      · exact hm op (List.mem_append.mpr (Or.inl hop1))
      · rcases List.mem_cons.mp hop2 with hop3 | hop4
        · subst hop3
          simp [isMultiIn, he']
        · exact hm op (List.mem_append.mpr (Or.inr hop4))
    cases ht : applyTokenOps req pk with
    | ok p =>
      obtain ⟨r1, b1⟩ := p
      cases b1 with
      | true => simp only [whereClauseToPBRead, ht]
      | false =>
        simp only [whereClauseToPBRead, ht]
        rw [hbk r1]
        cases hB : bindKeys r1 (kpre ++ ⟨c, .QL_OP_EQUAL, e'⟩ :: kpost) with
        | ok q =>
          obtain ⟨r2, nr2, ks2⟩ := q
          cases nr2 with
          | true => simp only [hB]
          | false =>
            have hks := bindKeys_flag_true _ _ _ _ _ hmEq hB
            subst hks
            simp only [hB]
            rw [buildResidual_true_congr (kpre ++ ⟨c, .QL_OP_IN, e⟩ :: kpost)
              (kpre ++ ⟨c, .QL_OP_EQUAL, e'⟩ :: kpost) wops sops fops]
        | err => simp only [hB]
        | fatal => simp only [hB]
    | err => simp only [whereClauseToPBRead, ht]
    | fatal => simp only [whereClauseToPBRead, ht]
  · intro hh
    simp [bindKeys, hh, he, QLExpressionPB.listElems]

/-- Witness for C4: `h1 IN [7]` versus `h1 EQ 7` on a fresh request. -/
theorem c4_singleton_in_is_equality_witness :
    (whereClauseToPBRead emptyReadReq
        ([] ++ ⟨⟨1, .hash⟩, .QL_OP_IN, .lowersTo (.value (.listVal [.int64 7]))⟩ :: [])
        [] [] [] [] =
      whereClauseToPBRead emptyReadReq
        ([] ++ ⟨⟨1, .hash⟩, .QL_OP_EQUAL, .lowersTo (.value (.int64 7))⟩ :: [])
        [] [] [] []) ∧
    (ColumnDesc.is_hash ⟨1, .hash⟩ = true →
      bindKeys emptyReadReq
          [⟨⟨1, .hash⟩, .QL_OP_IN, .lowersTo (.value (.listVal [.int64 7]))⟩] =
        .ok ({emptyReadReq with
                hashed_column_values :=
                  emptyReadReq.hashed_column_values ++ [.value (.int64 7)]},
             false, true)) :=
  c4_singleton_in_is_equality emptyReadReq [] [] [] [] [] []
    ⟨1, .hash⟩ (.lowersTo (.value (.listVal [.int64 7])))
    (.lowersTo (.value (.int64 7))) (.int64 7) rfl rfl (by intro op hop; simp at hop)

/-- C7: on the write path, a key op over a column that is neither a hash nor a
range primary-key column aborts fatally, and a non-empty `where_ops` list
aborts fatally; under the precondition that every key op is over a primary-key
column and `where_ops` is empty, no fatal branch is reachable (the lowering
returns `ok` or a propagated expression-lowering error). -/
theorem c7_write_fatal_branches :
    (∀ (req : QLWriteRequestPB) (kops wops : List ColumnOp)
        (sops : List SubscriptedColumnOp),
      (∀ op ∈ kops, op.desc.is_primary = true) → wops = [] →
      whereClauseToPBWrite req kops wops sops ≠ .fatal) ∧
    (∀ (req : QLWriteRequestPB) (kpre : List ColumnOp) (op : ColumnOp)
        (kpost wops : List ColumnOp) (sops : List SubscriptedColumnOp)
        (r : QLWriteRequestPB),
      bindWriteKeys req kpre = .ok r →
      op.desc.is_hash = false → op.desc.is_primary = false →
      whereClauseToPBWrite req (kpre ++ op :: kpost) wops sops = .fatal) ∧
    (∀ (req : QLWriteRequestPB) (kops wops : List ColumnOp)
        (sops : List SubscriptedColumnOp) (r : QLWriteRequestPB),
      bindWriteKeys req kops = .ok r → wops ≠ [] →
      whereClauseToPBWrite req kops wops sops = .fatal) := by
  refine ⟨?_, ?_, ?_⟩
  · intro req kops wops sops hp hw
    subst hw
    simp only [whereClauseToPBWrite]
    cases hb : bindWriteKeys req kops with
    | ok r1 =>
      simp only [hb, List.isEmpty_nil, if_true]
      exact bindSubcols_not_fatal _ _
    | err => simp [hb]
    | fatal => exact absurd hb (bindWriteKeys_not_fatal _ _ hp)
  · intro req kpre op kpost wops sops r hb hh hp
    simp only [whereClauseToPBWrite]
    have happ := bindWriteKeys_append kpre req (op :: kpost)
    simp only [hb] at happ
    have hfat : bindWriteKeys r (op :: kpost) = .fatal := by
      simp [bindWriteKeys, hh, hp]
    rw [hfat] at happ
    simp only [happ]
  · intro req kops wops sops r hb hw
    simp only [whereClauseToPBWrite, hb]
    have hne : wops.isEmpty = false := by
      cases wops with
      | nil => exact absurd rfl hw
      | cons a l => rfl
    simp [hne]

/-- Witness for C7: a hash-column key op succeeds; a regular-column key op and
a non-empty `where_ops` list each abort. -/
theorem c7_write_fatal_branches_witness :
    whereClauseToPBWrite emptyWriteReq
        [⟨⟨1, .hash⟩, .QL_OP_EQUAL, .lowersTo (.value (.int64 5))⟩] [] [] ≠ .fatal ∧
    whereClauseToPBWrite emptyWriteReq
        ([] ++ ⟨⟨3, .regular⟩, .QL_OP_EQUAL, .lowersTo (.value (.int64 5))⟩ :: [])
        [] [] = .fatal ∧
    whereClauseToPBWrite emptyWriteReq []
        [⟨⟨2, .range⟩, .QL_OP_EQUAL, .lowersTo (.value (.int64 5))⟩] [] = .fatal :=
  ⟨c7_write_fatal_branches.1 emptyWriteReq
      [⟨⟨1, .hash⟩, .QL_OP_EQUAL, .lowersTo (.value (.int64 5))⟩] [] []
      (by intro op hop; simp at hop; subst hop; rfl) rfl,
   c7_write_fatal_branches.2.1 emptyWriteReq []
      ⟨⟨3, .regular⟩, .QL_OP_EQUAL, .lowersTo (.value (.int64 5))⟩ [] [] []
      emptyWriteReq rfl rfl rfl,
   c7_write_fatal_branches.2.2 emptyWriteReq []
      [⟨⟨2, .range⟩, .QL_OP_EQUAL, .lowersTo (.value (.int64 5))⟩] []
      emptyWriteReq rfl (by simp)⟩

/-- C10: when a multi-valued `IN` key op precedes an empty-`IN` key op,
scanning stops at the multi-valued op, so the empty `IN` — which alone would
guarantee an empty result — is never inspected: `no_results` stays false and
the empty-`IN` op is emitted as an operand of the residual `AND` instead. -/
theorem c10_multi_in_shadows_empty_in (req : QLReadRequestPB)
    (pk : List PartitionKeyOp) (kpre rest wops : List ColumnOp)
    (sops : List SubscriptedColumnOp) (fops : List FuncOp)
    (c1 c2 : ColumnDesc) (e1 e2 : PTExpr) (pb1 pb2 : QLExpressionPB)
    (r1 r2 : QLReadRequestPB) (lk lw ls lf : List QLConditionPB)
    (htok : applyTokenOps req pk = .ok (r1, false))
    (hbind : bindKeys r1 kpre = .ok (r2, false, true))
    (hh1 : c1.is_hash = true)
    (hpb1 : PTExprToPB e1 = .ok pb1) (hlen : 2 ≤ pb1.listElems.length)
    (hmem : (⟨c2, .QL_OP_IN, e2⟩ : ColumnOp) ∈ rest)
    (hpb2 : PTExprToPB e2 = .ok pb2) (_hel2 : pb2.listElems = [])
    (hlk : mapOutcome whereOpToPB (kpre ++ ⟨c1, .QL_OP_IN, e1⟩ :: rest) = .ok lk)
    (hlw : mapOutcome whereOpToPB wops = .ok lw)
    (hls : mapOutcome whereSubColOpToPB sops = .ok ls)
    (hlf : mapOutcome funcOpToPB fops = .ok lf) :
    ∃ r3 wc,
      whereClauseToPBRead req (kpre ++ ⟨c1, .QL_OP_IN, e1⟩ :: rest) wops sops pk fops =
        .ok (r3, false) ∧
      r3.where_expr = some wc ∧ wc.op = .QL_OP_AND ∧
      QLExpressionPB.cond (.mk .QL_OP_IN [.column c2.id, pb2]) ∈ wc.operands := by
  obtain ⟨a, b, tl, hl⟩ : ∃ a b tl, pb1.listElems = a :: b :: tl := by
    cases hl : pb1.listElems with
    | nil => rw [hl] at hlen; simp at hlen
    | cons a t =>
      cases t with
      | nil => rw [hl] at hlen; simp at hlen
      | cons b tl => exact ⟨a, b, tl, rfl⟩
  have hstep : bindKeys r2 (⟨c1, .QL_OP_IN, e1⟩ :: rest) =
      .ok ({r2 with hashed_column_values := []}, false, false) := by
    simp [bindKeys, hh1, hpb1, hl]
  have happ := bindKeys_append kpre r1 (⟨c1, .QL_OP_IN, e1⟩ :: rest)
  simp only [hbind] at happ
  rw [hstep] at happ
  have hres : buildResidual false (kpre ++ ⟨c1, .QL_OP_IN, e1⟩ :: rest) wops sops fops =
      .ok (.mk .QL_OP_AND ((lk ++ lw ++ ls ++ lf).map QLExpressionPB.cond)) := by
    simp [buildResidual, hlk, hlw, hls, hlf]
  refine ⟨{r2 with
            hashed_column_values := []
            where_expr := some (.mk .QL_OP_AND
              ((lk ++ lw ++ ls ++ lf).map QLExpressionPB.cond))},
          .mk .QL_OP_AND ((lk ++ lw ++ ls ++ lf).map QLExpressionPB.cond),
          ?_, rfl, rfl, ?_⟩
  · simp [whereClauseToPBRead, htok, happ, hres]
  · have hop2 : whereOpToPB ⟨c2, .QL_OP_IN, e2⟩ =
        .ok (.mk .QL_OP_IN [.column c2.id, pb2]) := by
      simp [whereOpToPB, hpb2]
    obtain ⟨cc, hcc, hmemc⟩ := mapOutcome_mem _ _ _ hlk _
      (List.mem_append.mpr (Or.inr (List.mem_cons_of_mem _ hmem)))
    rw [hop2] at hcc
    injection hcc with hcc'
    subst hcc'
    exact List.mem_map_of_mem _
      (List.mem_append.mpr (Or.inl (List.mem_append.mpr (Or.inl
        (List.mem_append.mpr (Or.inl hmemc))))))

/-- Witness for C10: `h1 IN [7,8]` followed by `h2 IN []`; the run succeeds
with `no_results = false` and the empty `IN` appears as an `AND` operand. -/
theorem c10_multi_in_shadows_empty_in_witness :
    ∃ r3 wc,
      whereClauseToPBRead emptyReadReq
          ([] ++ ⟨⟨1, .hash⟩, .QL_OP_IN,
              .lowersTo (.value (.listVal [.int64 7, .int64 8]))⟩ ::
            [⟨⟨2, .hash⟩, .QL_OP_IN, .lowersTo (.value (.listVal []))⟩]) [] [] [] [] =
        .ok (r3, false) ∧
      r3.where_expr = some wc ∧ wc.op = .QL_OP_AND ∧
      QLExpressionPB.cond
          (.mk .QL_OP_IN [.column (ColumnDesc.id ⟨2, .hash⟩), .value (.listVal [])]) ∈
        wc.operands :=
  c10_multi_in_shadows_empty_in emptyReadReq [] []
    [⟨⟨2, .hash⟩, .QL_OP_IN, .lowersTo (.value (.listVal []))⟩] [] [] []
    ⟨1, .hash⟩ ⟨2, .hash⟩
    (.lowersTo (.value (.listVal [.int64 7, .int64 8])))
    (.lowersTo (.value (.listVal [])))
    (.value (.listVal [.int64 7, .int64 8])) (.value (.listVal []))
    emptyReadReq emptyReadReq
    [.mk .QL_OP_IN [.column 1, .value (.listVal [.int64 7, .int64 8])],
     .mk .QL_OP_IN [.column 2, .value (.listVal [])]] [] [] []
    rfl rfl rfl rfl (by decide) (by simp) rfl rfl rfl rfl rfl rfl

/-- C3 counterexample: a key-op list that does contain a multi-valued `IN` on
a hash column — `[h1 IN [], h2 IN [7, 8]]` — but whose lowering returns with a
non-empty `hashed_column_values` and no `where_expr`: the empty `IN` earlier
in the list short-circuits before the multi-valued `IN` is ever inspected, so
the claim as stated fails at this input. -/
theorem c3_counterexample :
    whereClauseToPBRead emptyReadReq
        [⟨⟨1, .hash⟩, .QL_OP_IN, .lowersTo (.value (.listVal []))⟩,
         ⟨⟨2, .hash⟩, .QL_OP_IN, .lowersTo (.value (.listVal [.int64 7, .int64 8]))⟩]
        [] [] [] [] =
      .ok (⟨none, none, [.value (.listVal [])], none⟩, true) ∧
    QLOperator.QL_OP_IN =
      ColumnOp.yb_op ⟨⟨2, .hash⟩, .QL_OP_IN,
        .lowersTo (.value (.listVal [.int64 7, .int64 8]))⟩ ∧
    2 ≤ (QLExpressionPB.value (.listVal [.int64 7, .int64 8])).listElems.length ∧
    ([QLExpressionPB.value (.listVal [])] ≠ ([] : List QLExpressionPB)) ∧
    (none : Option QLConditionPB) = none := by
  refine ⟨rfl, rfl, by decide, by simp, rfl⟩

/-- C3 (amended): for every read lowering that returns successfully **with
`no_results` false** and whose key-op list contains an `IN` op lowering to two
or more elements, the final request has empty `hashed_column_values` and its
`where_expr` condition is a logical `AND` whose operands include every key op
as a binary comparison condition. -/
theorem c3_amended_multi_in_residual (req : QLReadRequestPB)
    (kops wops : List ColumnOp) (sops : List SubscriptedColumnOp)
    (pk : List PartitionKeyOp) (fops : List FuncOp) (r : QLReadRequestPB)
    (op0 : ColumnOp) (pb0 : QLExpressionPB)
    (hrun : whereClauseToPBRead req kops wops sops pk fops = .ok (r, false))
    (hmem : op0 ∈ kops) (hin : op0.yb_op = .QL_OP_IN)
    (hpb : PTExprToPB op0.expr = .ok pb0) (hlen : 2 ≤ pb0.listElems.length) :
    r.hashed_column_values = [] ∧
    ∃ wc, r.where_expr = some wc ∧ wc.op = .QL_OP_AND ∧
      ∀ o ∈ kops, ∃ cc, whereOpToPB o = .ok cc ∧
        QLExpressionPB.cond cc ∈ wc.operands := by
  simp only [whereClauseToPBRead] at hrun
  split at hrun
  · simp at hrun
  · rename_i r1 h1
    split at hrun
    · simp at hrun
    · rename_i r2 ks h2
      cases ks with
      | true => exact (bindKeys_multiIn_not_set _ _ _ _ _ hmem hin hpb hlen h2).elim
      | false =>
        have hclr := bindKeys_cleared _ _ _ _ h2
        split at hrun
        · rename_i hcond
          simp at hcond
        · split at hrun
          · rename_i c hc
            simp at hrun
            subst hrun
            simp only [buildResidual] at hc
            split at hc
            · rename_i lk hlk
              split at hc
              · rename_i lw hlw
                split at hc
                · rename_i ls hls
                  split at hc
                  · rename_i lf hlf
                    simp at hc
                    subst hc
                    refine ⟨hclr.2, _, rfl, rfl, ?_⟩
                    intro o ho
                    obtain ⟨cc, hcc, hmemc⟩ := mapOutcome_mem _ _ _ hlk o ho
                    refine ⟨cc, hcc, ?_⟩
                    exact List.mem_append.mpr (Or.inl (List.mem_map_of_mem _ hmemc))
                  · exact absurd hc (by simp)
                  · exact absurd hc (by simp)
                · exact absurd hc (by simp)
                · exact absurd hc (by simp)
              · exact absurd hc (by simp)
              · exact absurd hc (by simp)
            · exact absurd hc (by simp)
            · exact absurd hc (by simp)
          · exact absurd hrun (by simp)
          · exact absurd hrun (by simp)
    · exact absurd hrun (by simp)
    · exact absurd hrun (by simp)
  · exact absurd hrun (by simp)
  · exact absurd hrun (by simp)

/-- Witness for the amended C3: `kops = [h1 IN [7,8]]`, empty residual
collections. -/
theorem c3_amended_multi_in_residual_witness :
    QLReadRequestPB.hashed_column_values
        ⟨none, none, [],
          some (.mk .QL_OP_AND
            [.cond (.mk .QL_OP_IN
              [.column 1, .value (.listVal [.int64 7, .int64 8])])])⟩ = [] ∧
    ∃ wc, QLReadRequestPB.where_expr
          ⟨none, none, [],
            some (.mk .QL_OP_AND
              [.cond (.mk .QL_OP_IN
                [.column 1, .value (.listVal [.int64 7, .int64 8])])])⟩ = some wc ∧
      wc.op = .QL_OP_AND ∧
      ∀ o ∈ [(⟨⟨1, .hash⟩, .QL_OP_IN,
          .lowersTo (.value (.listVal [.int64 7, .int64 8]))⟩ : ColumnOp)],
        ∃ cc, whereOpToPB o = .ok cc ∧ QLExpressionPB.cond cc ∈ wc.operands :=
  c3_amended_multi_in_residual emptyReadReq
    [⟨⟨1, .hash⟩, .QL_OP_IN, .lowersTo (.value (.listVal [.int64 7, .int64 8]))⟩]
    [] [] [] []
    ⟨none, none, [],
      some (.mk .QL_OP_AND
        [.cond (.mk .QL_OP_IN [.column 1, .value (.listVal [.int64 7, .int64 8])])])⟩
    ⟨⟨1, .hash⟩, .QL_OP_IN, .lowersTo (.value (.listVal [.int64 7, .int64 8]))⟩
    (.value (.listVal [.int64 7, .int64 8]))
    rfl (by simp) rfl rfl (by decide)

/-- A single partition-key op applied to a request with both hash bounds
unset can only produce a well-ordered pair of bounds: the only op that sets
both is `EQ v` with `v ≠ MAX_HASH`, yielding `[v, v+1)`. -/
theorem tokenOpStep_fresh (req : QLReadRequestPB) (o : QLOperator) (hc : Nat)
    (r1 : QLReadRequestPB) (b1 : Bool)
    (h0 : req.hash_code = none) (h1 : req.max_hash_code = none)
    (h : tokenOpStep req o hc = .ok (r1, b1)) :
    ∀ a b, r1.hash_code = some a → r1.max_hash_code = some b → a < b := by
  intro a b ha hb
  cases o <;> simp only [tokenOpStep] at h
  all_goals try split at h
  all_goals simp at h
  all_goals obtain ⟨hr, hbb⟩ := h
  all_goals subst hr
  · rw [h1] at hb
    exact absurd hb (by simp)
  · rw [h1] at hb
    exact absurd hb (by simp)
  · rw [h1] at hb
    exact absurd hb (by simp)
  · rw [h0] at ha
    exact absurd ha (by simp)
  · rw [h0] at ha
    exact absurd ha (by simp)
  · rw [h0] at ha
    exact absurd ha (by simp)
  · simp at ha hb
    subst ha
    subst hb
    exact Nat.lt_succ_self _
  · rw [h1] at hb
    exact absurd hb (by simp)

/-- C1 counterexample: the partition-key op list `[GE 20, LT 10]` lowers
successfully to a request with `hash_code = 20` and `max_hash_code = 10` —
both set, not `hash_code < max_hash_code` — while `no_results` is false: the
reducer performs no emptiness check across ops, so the claim as stated fails
at this input. -/
theorem c1_counterexample :
    whereClauseToPBRead emptyReadReq [] [] []
        [⟨.QL_OP_GREATER_THAN_EQUAL, tokenExpr 20⟩, ⟨.QL_OP_LESS_THAN, tokenExpr 10⟩] [] =
      .ok (⟨some 20, some 10, [], none⟩, false) ∧
    ¬((20 : Nat) < 10 ∨ (false : Bool) = true) :=
  ⟨rfl, by decide⟩

/-- C1 (amended): for every read lowering from a request with both hash
bounds initially unset whose partition-key op list has at most one op, if the
lowering returns successfully and both `hash_code` and `max_hash_code` are
set, then `hash_code < max_hash_code`.  (With two or more token ops the code
performs no cross-op emptiness check, as the counterexample shows.) -/
theorem c1_amended_interval_wellformed (req : QLReadRequestPB)
    (kops wops : List ColumnOp) (sops : List SubscriptedColumnOp)
    (pk : List PartitionKeyOp) (fops : List FuncOp)
    (r : QLReadRequestPB) (nr : Bool) (a b : Nat)
    (hlen : pk.length ≤ 1)
    (h0 : req.hash_code = none) (h1 : req.max_hash_code = none)
    (hrun : whereClauseToPBRead req kops wops sops pk fops = .ok (r, nr))
    (ha : r.hash_code = some a) (hb : r.max_hash_code = some b) :
    a < b := by
  obtain ⟨r1, b1, htok, hhc, hmc⟩ := whereRead_hash_bounds _ _ _ _ _ _ _ _ hrun
  have ha1 : r1.hash_code = some a := hhc.symm.trans ha
  have hb1 : r1.max_hash_code = some b := hmc.symm.trans hb
  cases pk with
  | nil =>
    simp only [applyTokenOps] at htok
    simp at htok
    obtain ⟨he, _⟩ := htok
    subst he
    rw [h0] at ha1
    exact absurd ha1 (by simp)
  | cons op rest =>
    cases rest with
    | nil =>
      simp only [applyTokenOps] at htok
      split at htok
      · split at htok
        · rename_i req1 hstep
          simp at htok
          obtain ⟨he, _⟩ := htok
          subst he
          exact tokenOpStep_fresh _ _ _ _ _ h0 h1 hstep _ _ ha1 hb1
        · rename_i req1 hstep
          simp [applyTokenOps] at htok
          obtain ⟨he, _⟩ := htok
          subst he
          exact tokenOpStep_fresh _ _ _ _ _ h0 h1 hstep _ _ ha1 hb1
        · exact absurd htok (by simp)
        · exact absurd htok (by simp)
      · exact absurd htok (by simp)
      · exact absurd htok (by simp)
    | cons op2 rest2 => simp at hlen

/-- Witness for the amended C1: `[EQ 5]` yields the interval `[5, 6)`. -/
theorem c1_amended_interval_wellformed_witness : (5 : Nat) < 6 :=
  c1_amended_interval_wellformed emptyReadReq [] [] []
    [⟨.QL_OP_EQUAL, tokenExpr 5⟩] [] ⟨some 5, some 6, [], none⟩ false 5 6
    (by decide) rfl rfl rfl rfl rfl
